import Mathlib

/-!
Verification of the `insight-platform/utils-rs` configuration utilities.

The development shallowly embeds the two modules the claims are about:

* `src/mqtt.rs` — `validate_topic_name`, a pure character scan;
* `src/etcd_conf.rs` — `VarPathSpec` (path specifications and the
  `Path::join`-based constructors), the read primitives `get` /
  `get_prefix`, `fetch_vars`, the `ConfClient` lease state,
  `kv_operations`, and the `monitor` watch/reconcile loop.

External effects (the etcd server, the watch stream, the change sink and
the mutation source) are modelled by explicit oracles: every fallible
call takes its outcome from an input structure, and every call the
client issues is recorded in an effect trace, so ordering and
termination claims become statements about traces and outcomes.
-/

namespace Mqtt

/-- The scanning loop of `validate_topic_name` (src/mqtt.rs:3-17),
over the list of characters still to be scanned.  `n` is the Rust
`last_part_length` accumulator: the length of the current
`/`-separated segment scanned so far. -/
def validateLoop : List Char → Nat → Bool
  | [], n => ¬ (n = 0)
  | c :: rest, n =>
    if c = '+' ∨ c = '#' then false
    else if c = '/' then
      if n = 0 then false else validateLoop rest 0
    else validateLoop rest (n + 1)

/-- `validate_topic_name` (src/mqtt.rs:1-24): scans the topic left to
right with `last_part_length` starting at 0, and finally rejects a
trailing empty segment. -/
def validate_topic_name (topic : String) : Bool :=
  validateLoop topic.toList 0

/-- The `/`-separated segments of a character list; `splitSegs []`
is `[[]]`, matching the convention that the empty string has one empty
segment. -/
def splitSegs : List Char → List (List Char)
  | [] => [[]]
  | c :: rest =>
    if c = '/' then [] :: splitSegs rest
    else
      match splitSegs rest with
      | [] => [[c]]
      | s :: ss => (c :: s) :: ss

theorem splitSegs_ne_nil (l : List Char) : splitSegs l ≠ [] := by
  induction l with
  | nil => simp [splitSegs]
  | cons c rest ih =>
    simp only [splitSegs]
    split
    · simp
    · cases h : splitSegs rest with
      | nil => simp
      | cons s ss => simp

/-- Generalised invariant for the scan: with `n` characters of the
current segment already consumed, the loop accepts exactly when no
wildcard character remains, the current segment ends up nonempty
(counting the consumed part), and all later segments are nonempty. -/
theorem validateLoop_spec (l : List Char) (n : Nat) :
    validateLoop l n = true ↔
      ('+' ∉ l ∧ '#' ∉ l ∧
        match splitSegs l with
        | [] => True
        | s :: ss => (n + s.length ≠ 0) ∧ ∀ t ∈ ss, t ≠ []) := by
  induction l generalizing n with
  | nil =>
    simp [validateLoop, splitSegs]
  | cons c rest ih =>
    cases h : splitSegs rest with
    | nil => exact absurd h (splitSegs_ne_nil rest)
    | cons s ss =>
      by_cases hp : c = '+'
      · subst hp; simp [validateLoop]
      · by_cases hh : c = '#'
        · subst hh; simp [validateLoop]
        · have hp2 : ¬ '+' = c := fun he => hp he.symm
          have hh2 : ¬ '#' = c := fun he => hh he.symm
          by_cases hs : c = '/'
          · subst hs
            have hsp : splitSegs ('/' :: rest) = [] :: s :: ss := by
              simp [splitSegs, h]
            by_cases hn : n = 0
            · subst hn
              have lhs : validateLoop ('/' :: rest) 0 = false := by
                simp [validateLoop]
              rw [lhs, hsp]
              simp
            · have lhs : validateLoop ('/' :: rest) n = validateLoop rest 0 := by
                simp [validateLoop, hn]
              rw [lhs, ih 0, hsp, h]
              simp [List.forall_mem_cons, List.length_eq_zero, hn]
          · have hsp : splitSegs (c :: rest) = (c :: s) :: ss := by
              simp [splitSegs, hs, h]
            have lhs : validateLoop (c :: rest) n = validateLoop rest (n + 1) := by
              simp [validateLoop, hp, hh, hs]
            rw [lhs, ih (n + 1), hsp, h]
            simp [List.mem_cons, hp2, hh2]

/-- C10: `validate_topic_name` returns `false` exactly when the topic
contains `+` or `#` anywhere or some `/`-separated segment is empty
(which covers the empty string, a leading or trailing `/`, and `//`);
on every other string it returns `true`. -/
theorem c10_validate_topic_name (topic : String) :
    validate_topic_name topic = true ↔
      ('+' ∉ topic.toList ∧ '#' ∉ topic.toList ∧
        ∀ s ∈ splitSegs topic.toList, s ≠ []) := by
  rw [validate_topic_name, validateLoop_spec]
  cases h : splitSegs topic.toList with
  | nil => exact absurd h (splitSegs_ne_nil _)
  | cons s ss =>
    simp [List.forall_mem_cons, List.length_eq_zero]

end Mqtt

namespace EtcdConf

/-- The error type surfaced through `anyhow::Result` in
`src/etcd_conf.rs`: `keyDoesNotExist` mirrors the
`ConfigError::KeyDoesNotExist(key)` value built at line 110, and
`transport` stands for any error coming out of the `etcd_client`
transport layer (connection, stream, RPC failures). -/
inductive Err
  | keyDoesNotExist (key : String)
  | transport (msg : String)
deriving DecidableEq, Repr

/-- `Operation` (src/etcd_conf.rs:46-60): the closed set of mutation
intents, plus the `Nope` no-op sentinel used for default construction. -/
inductive Operation
  | Set (key value : String) (with_lease : Bool)
  | DelKey (key : String)
  | DelPrefix (p : String)
  | Nope
deriving DecidableEq, Repr

/-- Outcome of code that may `panic!`: Rust panics are modelled as a
distinguished non-value outcome, separate from `Except` error values. -/
inductive POr (α : Type)
  | panicked
  | ret (a : α)
deriving DecidableEq, Repr

/-- A character-list test that `pre` is a prefix of `s`; used in place
of `String.startsWith`, which does not reduce in the kernel.  `/` is a
one-byte UTF-8 character, so the byte-level checks done by Rust agree
with these character-level ones. -/
def strHasPrefix (pre s : String) : Bool :=
  pre.toList.isPrefixOf s.toList

/-- Does the string start with the path separator `/`
(Unix `Path::is_absolute` on the argument of `Path::join`)? -/
def headIsSlash (s : String) : Bool :=
  match s.toList with
  | '/' :: _ => true
  | _ => false

/-- Does the string end with the path separator `/` (the `need_sep`
check of `PathBuf::push`)? -/
def lastIsSlash (s : String) : Bool :=
  match s.toList.getLast? with
  | some '/' => true
  | _ => false

/-- `Path::new(base).join(Path::new(leaf)).to_str()` on Unix, as used
by the `VarPathSpec` constructors (src/etcd_conf.rs:75-93): an
absolute `leaf` replaces `base` entirely; otherwise a single `/` is
inserted exactly when `base` is nonempty and does not already end in
`/`.  Existing separators are preserved verbatim, never collapsed. -/
def rustPathJoin (base leaf : String) : String :=
  if headIsSlash leaf then leaf
  else if base = "" then leaf
  else if lastIsSlash base then base ++ leaf
  else base ++ "/" ++ leaf

/-- `VarPathSpec` (src/etcd_conf.rs:68-72). -/
inductive VarPathSpec
  | SingleVar (key : String)
  | Prefix (key : String)
deriving DecidableEq, Repr

/-- `VarPathSpec::new_var` (src/etcd_conf.rs:75-83). -/
def VarPathSpec.new_var (p var : String) : VarPathSpec :=
  VarPathSpec.SingleVar (rustPathJoin p var)

/-- `VarPathSpec::new_prefix` (src/etcd_conf.rs:85-93). -/
def VarPathSpec.new_prefix (p dir : String) : VarPathSpec :=
  VarPathSpec.Prefix (rustPathJoin p dir)

/-- The etcd store as seen by the read primitives: whether the store
is reachable over the network, and its key/value entries (etcd keys
are unique; entries are kept in the store's native lexicographic
order, which the claims under proof do not depend on). -/
structure StoreState where
  reachable : Bool
  entries : List (String × String)

/-- An exact-key read (`client.get(key, None)`): the unique entry for
`key`, if any. -/
def storeFind (s : StoreState) (k : String) : Option (String × String) :=
  s.entries.find? (fun e => e.1 = k)

/-- A range read with `GetOptions::new().with_prefix()`: every entry
whose key starts with `p`, in store order. -/
def storeRange (s : StoreState) (p : String) : List (String × String) :=
  s.entries.filter (fun e => strHasPrefix p e.1)

/-- `VarPathSpec::get` (src/etcd_conf.rs:95-116): defined only for
`SingleVar`; a reachable store with no entry for the key produces the
typed `ConfigError::KeyDoesNotExist(key)` error; an unreachable store
produces a transport error; calling it on a `Prefix` hits
`panic!("get method is only defined for SingleVar")`. -/
def VarPathSpec.get (s : StoreState) : VarPathSpec → POr (Except Err (String × String))
  | VarPathSpec.SingleVar key =>
    if s.reachable then
      match storeFind s key with
      | some kv => POr.ret (Except.ok kv)
      | none => POr.ret (Except.error (Err.keyDoesNotExist key))
    else POr.ret (Except.error (Err.transport "etcd unreachable"))
  | VarPathSpec.Prefix _ => POr.panicked

/-- `VarPathSpec::get_prefix` (src/etcd_conf.rs:118-137): defined only
for `Prefix`; returns every matching entry (possibly the empty list);
calling it on a `SingleVar` hits
`panic!("get_prefix method is only defined for Prefix")`. -/
def VarPathSpec.get_prefix (s : StoreState) : VarPathSpec → POr (Except Err (List (String × String)))
  | VarPathSpec.Prefix key =>
    if s.reachable then POr.ret (Except.ok (storeRange s key))
    else POr.ret (Except.error (Err.transport "etcd unreachable"))
  | VarPathSpec.SingleVar _ => POr.panicked

/-- `ConfClient::fetch_vars` (src/etcd_conf.rs:179-197): walks the
specs in order, resolving a `SingleVar` through `get` (pushing the
single pair) and a `Prefix` through `get_prefix` (appending all
pairs); the first error aborts the walk and is returned, discarding
the partial accumulator. -/
def fetch_vars (s : StoreState) : List VarPathSpec → POr (Except Err (List (String × String)))
  | [] => POr.ret (Except.ok [])
  | v :: rest =>
    match v with
    | VarPathSpec.SingleVar _ =>
      match VarPathSpec.get s v with
      | POr.panicked => POr.panicked
      | POr.ret (Except.error e) => POr.ret (Except.error e)
      | POr.ret (Except.ok kv) =>
        match fetch_vars s rest with
        | POr.panicked => POr.panicked
        | POr.ret (Except.error e) => POr.ret (Except.error e)
        | POr.ret (Except.ok tl) => POr.ret (Except.ok (kv :: tl))
    | VarPathSpec.Prefix _ =>
      match VarPathSpec.get_prefix s v with
      | POr.panicked => POr.panicked
      | POr.ret (Except.error e) => POr.ret (Except.error e)
      | POr.ret (Except.ok kvs) =>
        match fetch_vars s rest with
        | POr.panicked => POr.panicked
        | POr.ret (Except.error e) => POr.ret (Except.error e)
        | POr.ret (Except.ok tl) => POr.ret (Except.ok (kvs ++ tl))

/-- Specification-side resolution of one path spec against the store
(the reading of spec.md §4.3: "single vars via `resolve_one`, prefixes
via `resolve_many`"), used to compare `fetch_vars` against the spec's
description of its result. -/
def resolveSpec (s : StoreState) : VarPathSpec → List (String × String)
  | VarPathSpec.SingleVar k =>
    match storeFind s k with
    | some kv => [kv]
    | none => []
  | VarPathSpec.Prefix p => storeRange s p

/-- Specification-side result of a whole `fetch_vars` call: the
concatenation of each spec's resolution, preserving input order. -/
def resolveAll (s : StoreState) : List VarPathSpec → List (String × String)
  | [] => []
  | v :: rest => resolveSpec s v ++ resolveAll s rest

end EtcdConf

namespace EtcdConf

/-- One call the client issues against the outside world, in the order
issued; traces of these model the observable behaviour of
`kv_operations` and `monitor`. -/
inductive Effect
  | leaseGrant
  | keepAlive
  | notified (op : Operation)
  | put (key value : String) (lease : Option Int)
  | del (key : String)
  | delPrefix (p : String)
deriving DecidableEq, Repr

/-- The `ConfClient` state that the claims depend on
(src/etcd_conf.rs:39-44): the lease timeout fixed at construction and
the lazily granted lease id.  The connection and watch-stream handles
are modelled by the oracles supplied to each call. -/
structure ConfClient where
  lease_timeout : Int
  lease_id : Option Int
deriving DecidableEq, Repr

/-- `ConfClient::get_lease_id` (src/etcd_conf.rs:141-143). -/
def ConfClient.get_lease_id (c : ConfClient) : Option Int :=
  c.lease_id

/-- `ConfClient::new` (src/etcd_conf.rs:145-177): connect, then open
the watch; either step may fail with a transport error; on success the
client starts with `lease_id = None`.  `connectRes`/`watchRes` are the
outcomes of the two external calls (`none` = success). -/
def ConfClient.new (connectRes watchRes : Option Err) (lease_timeout : Int) :
    Except Err ConfClient :=
  match connectRes with
  | some e => Except.error e
  | none =>
    match watchRes with
    | some e => Except.error e
    | none => Except.ok { lease_timeout := lease_timeout, lease_id := none }

/-- The store call made for one `Operation`
(src/etcd_conf.rs:205-235): `Set` issues a put (attaching the current
lease exactly when `with_lease` is set), `DelKey` a delete, `DelPrefix`
a prefixed delete, and `Nope` issues nothing. -/
def opCall (lease : Int) : Operation → Option Effect
  | Operation.Set k v wl => some (Effect.put k v (if wl then some lease else none))
  | Operation.DelKey k => some (Effect.del k)
  | Operation.DelPrefix p => some (Effect.delPrefix p)
  | Operation.Nope => none

/-- The `for op in ops` loop of `kv_operations`
(src/etcd_conf.rs:205-236).  `res i` is the oracle outcome of the
store call made for the operation at position `i` (`none` = success);
the first failing call aborts the remaining operations and its error
is returned.  Returns the trace of store calls issued and the overall
outcome. -/
def applyOps (lease : Int) (res : Nat → Option Err) :
    List Operation → Nat → List Effect × Option Err
  | [], _ => ([], none)
  | op :: rest, i =>
    match opCall lease op with
    | none => applyOps lease res rest (i + 1)
    | some eff =>
      match res i with
      | some e => ([eff], some e)
      | none =>
        let r := applyOps lease res rest (i + 1)
        (eff :: r.1, r.2)

/-- `ConfClient::kv_operations` (src/etcd_conf.rs:199-238): if no
lease has been granted yet, grant one first (`grant` is the oracle
outcome of `lease_grant`; on its failure nothing else is attempted),
then run the operation loop.  Returns the effect trace, the updated
client and the outcome. -/
def ConfClient.kv_operations (c : ConfClient) (grant : Except Err Int)
    (ops : List Operation) (res : Nat → Option Err) :
    List Effect × ConfClient × Option Err :=
  match c.lease_id with
  | some l =>
    let r := applyOps l res ops 0
    (r.1, c, r.2)
  | none =>
    match grant with
    | Except.error e => ([Effect.leaseGrant], c, some e)
    | Except.ok g =>
      let r := applyOps g res ops 0
      (Effect.leaseGrant :: r.1, { c with lease_id := some g }, r.2)

/-- A key/value record carried by a watch event
(`etcd_client::KeyValue`): key, value and the lease id attached at
write time (0 = no lease). -/
structure KV where
  key : String
  value : String
  lease : Int
deriving DecidableEq, Repr

/-- The kind of a watch event (`etcd_client::EventType`). -/
inductive EventType
  | put
  | delete
deriving DecidableEq, Repr

/-- One watch event: its kind and its (protobuf-optional) key/value
record, matching `event.kv()` returning `Option<&KeyValue>`. -/
structure WEvent where
  etype : EventType
  kv : Option KV
deriving DecidableEq, Repr

/-- One watch-stream message (`etcd_client::WatchResponse`): the
cancellation flag, the created-acknowledgement flag and the batch of
events. -/
structure WatchResp where
  canceled : Bool
  created : Bool
  events : List WEvent
deriving DecidableEq, Repr

/-- Outcome of the bounded watch poll
`tokio::time::timeout(WATCH_WAIT_TTL, watcher.message())`
(src/etcd_conf.rs:255-259): elapsed timeout, a stream error
(propagated by `res?`), a closed stream (`Ok(None)`), or a message. -/
inductive PollResult
  | timeout
  | streamErr (e : Err)
  | closed
  | msg (r : WatchResp)
deriving DecidableEq, Repr

/-- The `Operation` the sink is notified with for one watch event
(src/etcd_conf.rs:269-295): `DelKey` for a delete event, `Set` with
`with_lease = (kv.lease != 0)` for a put event; an event carrying no
key/value record notifies nothing. -/
def eventOp : WEvent → Option Operation
  | ⟨EventType.delete, some kv⟩ => some (Operation.DelKey kv.key)
  | ⟨EventType.put, some kv⟩ =>
    some (Operation.Set kv.key kv.value (decide (kv.lease ≠ 0)))
  | ⟨_, none⟩ => none

/-- The event loop of `monitor` (src/etcd_conf.rs:269-295): events are
processed in order; for each one carrying a key/value record the sink's
`notify` is called with the corresponding `Operation`; `res n` is the
outcome of the `n`-th notify call of this batch (`none` = success), a
failure aborting the batch.  Returns the notification trace and the
outcome. -/
def notifyEvents (res : Nat → Option Err) :
    List WEvent → Nat → List Effect × Option Err
  | [], _ => ([], none)
  | ev :: rest, n =>
    match eventOp ev with
    | none => notifyEvents res rest n
    | some op =>
      match res n with
      | some e => ([Effect.notified op], some e)
      | none =>
        let r := notifyEvents res rest (n + 1)
        (Effect.notified op :: r.1, r.2)

/-- Outcome of one iteration of the `monitor` loop body. -/
inductive IterOutcome
  | cont
  | done
  | failed (e : Err)
deriving DecidableEq, Repr

/-- The oracle outcomes of all external calls one `monitor` iteration
may make: lease keep-alive, the bounded watch poll, the sink's notify
calls, the mutation source's `ops()` call, and (inside
`kv_operations`) the per-operation store calls and a lease grant
should one still be needed. -/
structure IterInput where
  keepAliveRes : Option Err
  poll : PollResult
  notifyRes : Nat → Option Err
  opsRes : Except Err (List Operation)
  grantRes : Except Err Int
  applyRes : Nat → Option Err

/-- Step 3 of a `monitor` iteration (src/etcd_conf.rs:301-302): ask
the mutation source for outgoing operations and apply them through
`kv_operations`; `pre` is the trace accumulated by steps 1 and 2. -/
def iterOps (c : ConfClient) (inp : IterInput) (pre : List Effect) :
    List Effect × ConfClient × IterOutcome :=
  match inp.opsRes with
  | Except.error e => (pre, c, IterOutcome.failed e)
  | Except.ok ops =>
    let r := ConfClient.kv_operations c inp.grantRes ops inp.applyRes
    match r.2.2 with
    | some e => (pre ++ r.1, r.2.1, IterOutcome.failed e)
    | none => (pre ++ r.1, r.2.1, IterOutcome.cont)

/-- One iteration of the `monitor` loop body (src/etcd_conf.rs:252-303),
in the fixed source order: (1) lease keep-alive, failure fatal; (2) the
bounded watch poll — a timeout skips straight to step 3, a stream error
is fatal, a closed stream or a cancellation message ends the loop with
success, and a message's events are forwarded to the sink one by one
(a `created` acknowledgement is only logged); (3) fetch and apply the
outgoing mutations. -/
def monitorIter (c : ConfClient) (inp : IterInput) :
    List Effect × ConfClient × IterOutcome :=
  match inp.keepAliveRes with
  | some e => ([Effect.keepAlive], c, IterOutcome.failed e)
  | none =>
    match inp.poll with
    | PollResult.timeout => iterOps c inp [Effect.keepAlive]
    | PollResult.streamErr e => ([Effect.keepAlive], c, IterOutcome.failed e)
    | PollResult.closed => ([Effect.keepAlive], c, IterOutcome.done)
    | PollResult.msg r =>
      if r.canceled then ([Effect.keepAlive], c, IterOutcome.done)
      else
        let nr := notifyEvents inp.notifyRes r.events 0
        match nr.2 with
        | some e => (Effect.keepAlive :: nr.1, c, IterOutcome.failed e)
        | none => iterOps c inp (Effect.keepAlive :: nr.1)

/-- Overall outcome of a `monitor` run over finitely many observed
iterations: ended with `Ok(())`, ended with an error, or still
running after the supplied iteration inputs are exhausted. -/
inductive MonOutcome
  | ok
  | err (e : Err)
  | running
deriving DecidableEq, Repr

/-- The `loop` of `monitor`, driven by one `IterInput` per iteration;
`running` means the loop is still going when the supplied inputs run
out. -/
def monitorLoop (c : ConfClient) : List IterInput → List Effect × ConfClient × MonOutcome
  | [] => ([], c, MonOutcome.running)
  | inp :: rest =>
    match monitorIter c inp with
    | (tr, c', IterOutcome.cont) =>
      let r := monitorLoop c' rest
      (tr ++ r.1, r.2.1, r.2.2)
    | (tr, c', IterOutcome.done) => (tr, c', MonOutcome.ok)
    | (tr, c', IterOutcome.failed e) => (tr, c', MonOutcome.err e)

/-- `ConfClient::monitor` (src/etcd_conf.rs:240-304): on entry, grant
a lease if none exists yet (`grant` being the oracle outcome of that
call, whose failure is fatal before the loop starts), then run the
loop. -/
def ConfClient.monitor (c : ConfClient) (grant : Except Err Int)
    (inps : List IterInput) : List Effect × ConfClient × MonOutcome :=
  match c.lease_id with
  | some _ => monitorLoop c inps
  | none =>
    match grant with
    | Except.error e => ([Effect.leaseGrant], c, MonOutcome.err e)
    | Except.ok g =>
      let r := monitorLoop { c with lease_id := some g } inps
      (Effect.leaseGrant :: r.1, r.2.1, r.2.2)

/-- Is an effect a sink notification? -/
def Effect.isNotify : Effect → Bool
  | Effect.notified _ => true
  | _ => false

/-- Is an effect a store write (put/delete/prefixed delete)? -/
def Effect.isWrite : Effect → Bool
  | Effect.put _ _ _ => true
  | Effect.del _ => true
  | Effect.delPrefix _ => true
  | _ => false

/-- The operations carried by the sink notifications of a trace, in
order. -/
def notifiedOps (tr : List Effect) : List Operation :=
  tr.filterMap (fun e =>
    match e with
    | Effect.notified op => some op
    | _ => none)

end EtcdConf

namespace EtcdConf

theorem applyOps_writes (l : Int) (res : Nat → Option Err) :
    ∀ (ops : List Operation) (i : Nat) (e : Effect),
      e ∈ (applyOps l res ops i).1 → Effect.isWrite e = true := by
  intro ops
  induction ops with
  | nil => intro i e he; simp [applyOps] at he
  | cons op rest ih =>
    intro i e he
    cases hc : opCall l op with
    | none =>
      rw [applyOps, hc] at he
      exact ih (i + 1) e he
    | some eff =>
      have heff : Effect.isWrite eff = true := by
        cases op <;> simp [opCall] at hc <;> simp [← hc, Effect.isWrite]
      cases hr : res i with
      | some err =>
        rw [applyOps, hc, hr] at he
        simp at he
        exact he ▸ heff
      | none =>
        rw [applyOps, hc, hr] at he
        simp at he
        rcases he with he | he
        · exact he ▸ heff
        · exact ih (i + 1) e he

theorem applyOps_all_ok (l : Int) (res : Nat → Option Err)
    (h : ∀ k, res k = none) :
    ∀ (ops : List Operation) (i : Nat),
      applyOps l res ops i = (ops.filterMap (opCall l), none) := by
  intro ops
  induction ops with
  | nil => intro i; simp [applyOps]
  | cons op rest ih =>
    intro i
    cases hc : opCall l op with
    | none => rw [applyOps, hc, ih (i + 1)]; simp [List.filterMap_cons, hc]
    | some eff => rw [applyOps, hc, h i, ih (i + 1)]; simp [List.filterMap_cons, hc]

theorem applyOps_abort (l : Int) (res : Nat → Option Err) :
    ∀ (ops : List Operation) (i0 i : Nat) (e : Err) (hi : i < ops.length),
      (∀ k, k < i → res (i0 + k) = none) → res (i0 + i) = some e →
      opCall l (ops.get ⟨i, hi⟩) ≠ none →
      applyOps l res ops i0 = ((ops.take (i + 1)).filterMap (opCall l), some e) := by
  intro ops
  induction ops with
  | nil => intro i0 i e hi; exact absurd hi (by simp)
  | cons op rest ih =>
    intro i0 i e hi hok hfail hcall
    cases i with
    | zero =>
      cases hc : opCall l op with
      | none => exact absurd hc (by simpa using hcall)
      | some eff =>
        rw [applyOps, hc]
        have : res i0 = some e := by simpa using hfail
        rw [this]
        simp [List.filterMap_cons, hc]
    | succ i' =>
      have hi' : i' < rest.length := by simpa using hi
      have hcall' : opCall l (rest.get ⟨i', hi'⟩) ≠ none := by
        simpa using hcall
      have hfail' : res (i0 + 1 + i') = some e := by
        rw [show i0 + 1 + i' = i0 + (i' + 1) by omega]
        exact hfail
      have hok' : ∀ k, k < i' → res (i0 + 1 + k) = none := by
        intro k hk
        rw [show i0 + 1 + k = i0 + (k + 1) by omega]
        exact hok (k + 1) (by omega)
      cases hc : opCall l op with
      | none =>
        rw [applyOps, hc, ih (i0 + 1) i' e hi' hok' hfail' hcall']
        simp [List.filterMap_cons, hc]
      | some eff =>
        have h0 : res i0 = none := by simpa using hok 0 (by omega)
        rw [applyOps, hc, h0, ih (i0 + 1) i' e hi' hok' hfail' hcall']
        simp [List.filterMap_cons, hc]

/-- With the lease already granted, `kv_operations` is exactly the
operation loop: no grant call, client unchanged. -/
theorem kv_operations_some (c : ConfClient) (l : Int) (h : c.lease_id = some l)
    (grant : Except Err Int) (ops : List Operation) (res : Nat → Option Err) :
    ConfClient.kv_operations c grant ops res =
      ((applyOps l res ops 0).1, c, (applyOps l res ops 0).2) := by
  rw [ConfClient.kv_operations.eq_def, h]

theorem kv_operations_none (c : ConfClient) (h : c.lease_id = none)
    (g : Int) (ops : List Operation) (res : Nat → Option Err) :
    ConfClient.kv_operations c (Except.ok g) ops res =
      (Effect.leaseGrant :: (applyOps g res ops 0).1,
        { c with lease_id := some g }, (applyOps g res ops 0).2) := by
  rw [ConfClient.kv_operations.eq_def, h]

theorem notifyEvents_notifies (res : Nat → Option Err) :
    ∀ (evs : List WEvent) (n : Nat) (e : Effect),
      e ∈ (notifyEvents res evs n).1 → Effect.isNotify e = true := by
  intro evs
  induction evs with
  | nil => intro n e he; simp [notifyEvents] at he
  | cons ev rest ih =>
    intro n e he
    cases hc : eventOp ev with
    | none =>
      rw [notifyEvents, hc] at he
      exact ih n e he
    | some op =>
      cases hr : res n with
      | some err =>
        rw [notifyEvents, hc, hr] at he
        simp at he
        simp [he, Effect.isNotify]
      | none =>
        rw [notifyEvents, hc, hr] at he
        simp at he
        rcases he with he | he
        · simp [he, Effect.isNotify]
        · exact ih (n + 1) e he

theorem notifyEvents_all_ok (res : Nat → Option Err)
    (h : ∀ n, res n = none) :
    ∀ (evs : List WEvent) (n : Nat),
      notifyEvents res evs n =
        ((evs.filterMap eventOp).map Effect.notified, none) := by
  intro evs
  induction evs with
  | nil => intro n; simp [notifyEvents]
  | cons ev rest ih =>
    intro n
    cases hc : eventOp ev with
    | none => rw [notifyEvents, hc, ih n]; simp [List.filterMap_cons, hc]
    | some op => rw [notifyEvents, hc, h n, ih (n + 1)]; simp [List.filterMap_cons, hc]

theorem notifiedOps_nil_of_not_notify (tr : List Effect)
    (h : ∀ e ∈ tr, Effect.isNotify e = false) : notifiedOps tr = [] := by
  induction tr with
  | nil => simp [notifiedOps]
  | cons e rest ih =>
    have he := h e (by simp)
    have hrest := ih (fun x hx => h x (by simp [hx]))
    cases e <;> simp [Effect.isNotify] at he ⊢ <;>
      simpa [notifiedOps, List.filterMap_cons] using hrest

theorem notifiedOps_map (l : List Operation) :
    notifiedOps (l.map Effect.notified) = l := by
  induction l with
  | nil => simp [notifiedOps]
  | cons op rest ih => simpa [notifiedOps, List.filterMap_cons] using ih

theorem notifiedOps_append (a b : List Effect) :
    notifiedOps (a ++ b) = notifiedOps a ++ notifiedOps b := by
  simp [notifiedOps, List.filterMap_append]

theorem write_not_notify (e : Effect) (h : Effect.isWrite e = true) :
    Effect.isNotify e = false := by
  cases e <;> simp [Effect.isWrite, Effect.isNotify] at h ⊢

end EtcdConf

namespace EtcdConf

theorem iterOps_ne_done (c : ConfClient) (inp : IterInput) (pre : List Effect) :
    (iterOps c inp pre).2.2 ≠ IterOutcome.done := by
  cases hop : inp.opsRes with
  | error e => simp [iterOps, hop]
  | ok ops =>
    simp only [iterOps, hop]
    cases h : (ConfClient.kv_operations c inp.grantRes ops inp.applyRes).2.2 with
    | some e => simp [h]
    | none => simp [h]

theorem iterOps_some (c : ConfClient) (l : Int) (h : c.lease_id = some l)
    (inp : IterInput) (pre : List Effect) :
    (iterOps c inp pre).2.1 = c ∧
    ∃ ws, (iterOps c inp pre).1 = pre ++ ws ∧
      ∀ e ∈ ws, Effect.isWrite e = true := by
  cases hop : inp.opsRes with
  | error e => refine ⟨by simp [iterOps, hop], [], by simp [iterOps, hop], by simp⟩
  | ok ops =>
    simp only [iterOps, hop, kv_operations_some c l h]
    cases hr : (applyOps l inp.applyRes ops 0).2 with
    | some e =>
      exact ⟨rfl, (applyOps l inp.applyRes ops 0).1, rfl,
        fun e he => applyOps_writes l inp.applyRes ops 0 e he⟩
    | none =>
      exact ⟨rfl, (applyOps l inp.applyRes ops 0).1, rfl,
        fun e he => applyOps_writes l inp.applyRes ops 0 e he⟩

/-- Trace shape of one iteration with the lease already granted: one
keep-alive first, then sink notifications, then store writes. -/
theorem monitorIter_trace_shape (c : ConfClient) (l : Int)
    (hl : c.lease_id = some l) (inp : IterInput) :
    ∃ ns ws, (monitorIter c inp).1 = Effect.keepAlive :: (ns ++ ws) ∧
      (∀ e ∈ ns, Effect.isNotify e = true) ∧
      (∀ e ∈ ws, Effect.isWrite e = true) := by
  cases hka : inp.keepAliveRes with
  | some e => exact ⟨[], [], by simp [monitorIter, hka], by simp, by simp⟩
  | none =>
    cases hp : inp.poll with
    | timeout =>
      obtain ⟨-, ws, hw, hws⟩ := iterOps_some c l hl inp [Effect.keepAlive]
      exact ⟨[], ws, by simpa [monitorIter, hka, hp] using hw, by simp, hws⟩
    | streamErr e => exact ⟨[], [], by simp [monitorIter, hka, hp], by simp, by simp⟩
    | closed => exact ⟨[], [], by simp [monitorIter, hka, hp], by simp, by simp⟩
    | msg r =>
      cases hc : r.canceled with
      | true => exact ⟨[], [], by simp [monitorIter, hka, hp, hc], by simp, by simp⟩
      | false =>
        cases hn : (notifyEvents inp.notifyRes r.events 0).2 with
        | some e =>
          refine ⟨(notifyEvents inp.notifyRes r.events 0).1, [],
            by simp [monitorIter, hka, hp, hc, hn], ?_, by simp⟩
          exact fun e he => notifyEvents_notifies inp.notifyRes r.events 0 e he
        | none =>
          obtain ⟨-, ws, hw, hws⟩ :=
            iterOps_some c l hl inp (Effect.keepAlive :: (notifyEvents inp.notifyRes r.events 0).1)
          refine ⟨(notifyEvents inp.notifyRes r.events 0).1, ws, ?_, ?_, hws⟩
          · simpa [monitorIter, hka, hp, hc, hn] using hw
          · exact fun e he => notifyEvents_notifies inp.notifyRes r.events 0 e he

theorem monitorIter_client (c : ConfClient) (l : Int)
    (hl : c.lease_id = some l) (inp : IterInput) :
    (monitorIter c inp).2.1 = c := by
  cases hka : inp.keepAliveRes with
  | some e => simp [monitorIter, hka]
  | none =>
    cases hp : inp.poll with
    | timeout => simpa [monitorIter, hka, hp] using (iterOps_some c l hl inp _).1
    | streamErr e => simp [monitorIter, hka, hp]
    | closed => simp [monitorIter, hka, hp]
    | msg r =>
      cases hc : r.canceled with
      | true => simp [monitorIter, hka, hp, hc]
      | false =>
        cases hn : (notifyEvents inp.notifyRes r.events 0).2 with
        | some e => simp [monitorIter, hka, hp, hc, hn]
        | none => simpa [monitorIter, hka, hp, hc, hn] using (iterOps_some c l hl inp _).1

theorem monitorIter_no_grant (c : ConfClient) (l : Int)
    (hl : c.lease_id = some l) (inp : IterInput) :
    Effect.leaseGrant ∉ (monitorIter c inp).1 := by
  obtain ⟨ns, ws, htr, hns, hws⟩ := monitorIter_trace_shape c l hl inp
  rw [htr]
  intro hmem
  simp at hmem
  rcases hmem with hmem | hmem
  · have := hns _ hmem
    simp [Effect.isNotify] at this
  · have := hws _ hmem
    simp [Effect.isWrite] at this

theorem monitorLoop_client (c : ConfClient) (l : Int)
    (hl : c.lease_id = some l) (inps : List IterInput) :
    (monitorLoop c inps).2.1 = c := by
  induction inps with
  | nil => rfl
  | cons inp rest ih =>
    have hc := monitorIter_client c l hl inp
    cases hit : monitorIter c inp with
    | mk tr rest' =>
      obtain ⟨c', o⟩ := rest'
      rw [hit] at hc
      have hc2 : c' = c := hc
      subst hc2
      cases o with
      | cont =>
        simp only [monitorLoop, hit]
        simpa using ih
      | done => simp [monitorLoop, hit]
      | failed e => simp [monitorLoop, hit]

theorem monitorLoop_no_grant (c : ConfClient) (l : Int)
    (hl : c.lease_id = some l) (inps : List IterInput) :
    Effect.leaseGrant ∉ (monitorLoop c inps).1 := by
  induction inps with
  | nil => simp [monitorLoop]
  | cons inp rest ih =>
    have hg := monitorIter_no_grant c l hl inp
    have hc := monitorIter_client c l hl inp
    cases hit : monitorIter c inp with
    | mk tr rest' =>
      obtain ⟨c', o⟩ := rest'
      rw [hit] at hc hg
      have hc2 : c' = c := hc
      subst hc2
      have hg2 : Effect.leaseGrant ∉ tr := hg
      cases o with
      | cont =>
        simp only [monitorLoop, hit]
        intro hmem
        simp at hmem
        rcases hmem with hmem | hmem
        · exact hg2 hmem
        · exact ih hmem
      | done => simpa [monitorLoop, hit] using hg2
      | failed e => simpa [monitorLoop, hit] using hg2

end EtcdConf

namespace EtcdConf

theorem kv_operations_trace (c : ConfClient) (grant : Except Err Int)
    (ops : List Operation) (res : Nat → Option Err) :
    ∀ e ∈ (ConfClient.kv_operations c grant ops res).1,
      e = Effect.leaseGrant ∨ Effect.isWrite e = true := by
  intro e he
  rw [ConfClient.kv_operations.eq_def] at he
  cases hl : c.lease_id with
  | some l =>
    rw [hl] at he
    exact Or.inr (applyOps_writes l res ops 0 e he)
  | none =>
    rw [hl] at he
    cases grant with
    | error g =>
      simp at he
      exact Or.inl he
    | ok g =>
      simp at he
      rcases he with he | he
      · exact Or.inl he
      · exact Or.inr (applyOps_writes g res ops 0 e he)

theorem iterOps_no_notify (c : ConfClient) (inp : IterInput) (pre : List Effect)
    (hpre : ∀ op, Effect.notified op ∉ pre) :
    ∀ op, Effect.notified op ∉ (iterOps c inp pre).1 := by
  intro op
  cases hop : inp.opsRes with
  | error e => simpa [iterOps, hop] using hpre op
  | ok ops =>
    simp only [iterOps, hop]
    have hkv : Effect.notified op ∉ (ConfClient.kv_operations c inp.grantRes ops inp.applyRes).1 := by
      intro hmem
      rcases kv_operations_trace c inp.grantRes ops inp.applyRes _ hmem with h | h
      · exact absurd h (by simp)
      · simp [Effect.isWrite] at h
    cases hr : (ConfClient.kv_operations c inp.grantRes ops inp.applyRes).2.2 with
    | some e =>
      simp only [hr]
      intro hmem
      rcases List.mem_append.mp hmem with h | h
      · exact hpre op h
      · exact hkv h
    | none =>
      simp only [hr]
      intro hmem
      rcases List.mem_append.mp hmem with h | h
      · exact hpre op h
      · exact hkv h

theorem monitorIter_ka_fail (c : ConfClient) (inp : IterInput) (e : Err)
    (h : inp.keepAliveRes = some e) :
    monitorIter c inp = ([Effect.keepAlive], c, IterOutcome.failed e) := by
  simp [monitorIter, h]

theorem monitorIter_timeout (c : ConfClient) (inp : IterInput)
    (hka : inp.keepAliveRes = none) (hp : inp.poll = PollResult.timeout) :
    monitorIter c inp = iterOps c inp [Effect.keepAlive] := by
  simp [monitorIter, hka, hp]

theorem monitorIter_done_iff (c : ConfClient) (inp : IterInput) :
    (monitorIter c inp).2.2 = IterOutcome.done ↔
      inp.keepAliveRes = none ∧
        (inp.poll = PollResult.closed ∨
          ∃ r, inp.poll = PollResult.msg r ∧ r.canceled = true) := by
  cases hka : inp.keepAliveRes with
  | some e => simp [monitorIter, hka]
  | none =>
    cases hp : inp.poll with
    | timeout =>
      simpa [monitorIter, hka, hp] using iterOps_ne_done c inp [Effect.keepAlive]
    | streamErr e => simp [monitorIter, hka, hp]
    | closed => simp [monitorIter, hka, hp]
    | msg r =>
      cases hc : r.canceled with
      | true => simp [monitorIter, hka, hp, hc]
      | false =>
        cases hn : (notifyEvents inp.notifyRes r.events 0).2 with
        | some e => simp [monitorIter, hka, hp, hc, hn]
        | none =>
          simpa [monitorIter, hka, hp, hc, hn] using
            iterOps_ne_done c inp (Effect.keepAlive :: (notifyEvents inp.notifyRes r.events 0).1)

theorem monitorLoop_ok_iff (c : ConfClient) (l : Int)
    (hl : c.lease_id = some l) (inps : List IterInput) :
    (monitorLoop c inps).2.2 = MonOutcome.ok ↔
      ∃ pre x post, inps = pre ++ x :: post ∧
        (∀ y ∈ pre, (monitorIter c y).2.2 = IterOutcome.cont) ∧
        (monitorIter c x).2.2 = IterOutcome.done := by
  induction inps with
  | nil =>
    simp only [monitorLoop]
    constructor
    · intro h; simp at h
    · rintro ⟨pre, x, post, heq, -, -⟩
      exact absurd heq.symm (by simp)
  | cons inp rest ih =>
    have hc := monitorIter_client c l hl inp
    cases hit : monitorIter c inp with
    | mk tr rest' =>
      obtain ⟨c', o⟩ := rest'
      rw [hit] at hc
      have hc2 : c' = c := hc
      subst hc2
      cases o with
      | done =>
        simp only [monitorLoop, hit]
        constructor
        · intro _
          exact ⟨[], inp, rest, by simp, by simp, by rw [hit]⟩
        · intro _
          trivial
      | failed e =>
        simp only [monitorLoop, hit]
        constructor
        · intro h; simp at h
        · rintro ⟨pre, x, post, heq, hpre, hx⟩
          cases pre with
          | nil =>
            simp at heq
            rw [heq.1] at hit
            rw [hit] at hx
            simp at hx
          | cons p pre' =>
            simp at heq
            have hp := hpre p (by simp)
            rw [heq.1] at hit
            rw [hit] at hp
            simp at hp
      | cont =>
        simp only [monitorLoop, hit]
        rw [ih]
        constructor
        · rintro ⟨pre, x, post, heq, hpre, hx⟩
          refine ⟨inp :: pre, x, post, by simp [heq], ?_, hx⟩
          intro y hy
          rcases List.mem_cons.mp hy with hy | hy
          · rw [hy, hit]
          · exact hpre y hy
        · rintro ⟨pre, x, post, heq, hpre, hx⟩
          cases pre with
          | nil =>
            simp at heq
            rw [heq.1] at hit
            rw [hit] at hx
            simp at hx
          | cons p pre' =>
            simp at heq
            exact ⟨pre', x, post, heq.2, fun y hy => hpre y (by simp [hy]), hx⟩

theorem monitorLoop_err_iff (c : ConfClient) (l : Int)
    (hl : c.lease_id = some l) (inps : List IterInput) (e : Err) :
    (monitorLoop c inps).2.2 = MonOutcome.err e ↔
      ∃ pre x post, inps = pre ++ x :: post ∧
        (∀ y ∈ pre, (monitorIter c y).2.2 = IterOutcome.cont) ∧
        (monitorIter c x).2.2 = IterOutcome.failed e := by
  induction inps with
  | nil =>
    simp only [monitorLoop]
    constructor
    · intro h; simp at h
    · rintro ⟨pre, x, post, heq, -, -⟩
      exact absurd heq.symm (by simp)
  | cons inp rest ih =>
    have hc := monitorIter_client c l hl inp
    cases hit : monitorIter c inp with
    | mk tr rest' =>
      obtain ⟨c', o⟩ := rest'
      rw [hit] at hc
      have hc2 : c' = c := hc
      subst hc2
      cases o with
      | failed e' =>
        simp only [monitorLoop, hit]
        constructor
        · intro h
          have he' : e' = e := by simpa using h
          exact ⟨[], inp, rest, by simp, by simp, by rw [hit, he']⟩
        · rintro ⟨pre, x, post, heq, hpre, hx⟩
          cases pre with
          | nil =>
            simp at heq
            rw [heq.1] at hit
            rw [hit] at hx
            have he' : e' = e := by simpa using hx
            simp [he']
          | cons p pre' =>
            simp at heq
            have hp := hpre p (by simp)
            rw [heq.1] at hit
            rw [hit] at hp
            simp at hp
      | done =>
        simp only [monitorLoop, hit]
        constructor
        · intro h; simp at h
        · rintro ⟨pre, x, post, heq, hpre, hx⟩
          cases pre with
          | nil =>
            simp at heq
            rw [heq.1] at hit
            rw [hit] at hx
            simp at hx
          | cons p pre' =>
            simp at heq
            have hp := hpre p (by simp)
            rw [heq.1] at hit
            rw [hit] at hp
            simp at hp
      | cont =>
        simp only [monitorLoop, hit]
        rw [ih]
        constructor
        · rintro ⟨pre, x, post, heq, hpre, hx⟩
          refine ⟨inp :: pre, x, post, by simp [heq], ?_, hx⟩
          intro y hy
          rcases List.mem_cons.mp hy with hy | hy
          · rw [hy, hit]
          · exact hpre y hy
        · rintro ⟨pre, x, post, heq, hpre, hx⟩
          cases pre with
          | nil =>
            simp at heq
            rw [heq.1] at hit
            rw [hit] at hx
            simp at hx
          | cons p pre' =>
            simp at heq
            exact ⟨pre', x, post, heq.2, fun y hy => hpre y (by simp [hy]), hx⟩

end EtcdConf

namespace EtcdConf

/-- C9: each read primitive called on its matching variant always
returns a value — the contract-violation branch is unreachable — while
`get` on a `Prefix` and `get_prefix` on a `SingleVar` panic rather
than returning a recoverable error value. -/
theorem c9_variant_contract :
    (∀ (s : StoreState) (k : String),
      ∃ r, VarPathSpec.get s (VarPathSpec.SingleVar k) = POr.ret r) ∧
    (∀ (s : StoreState) (p : String),
      ∃ r, VarPathSpec.get_prefix s (VarPathSpec.Prefix p) = POr.ret r) ∧
    (∀ (s : StoreState) (p : String),
      VarPathSpec.get s (VarPathSpec.Prefix p) = POr.panicked) ∧
    (∀ (s : StoreState) (k : String),
      VarPathSpec.get_prefix s (VarPathSpec.SingleVar k) = POr.panicked) := by
  refine ⟨fun s k => ?_, fun s p => ?_, fun s p => rfl, fun s k => rfl⟩
  · cases hr : s.reachable with
    | false =>
      exact ⟨Except.error (Err.transport "etcd unreachable"),
        by simp [VarPathSpec.get, hr]⟩
    | true =>
      cases hf : storeFind s k with
      | some kv => exact ⟨Except.ok kv, by simp [VarPathSpec.get, hr, hf]⟩
      | none =>
        exact ⟨Except.error (Err.keyDoesNotExist k),
          by simp [VarPathSpec.get, hr, hf]⟩
  · cases hr : s.reachable with
    | false =>
      exact ⟨Except.error (Err.transport "etcd unreachable"),
        by simp [ VarPathSpec.get_prefix, hr]⟩
    | true =>
      exact ⟨Except.ok (storeRange s p), by simp [ VarPathSpec.get_prefix, hr]⟩

/-- C6: on a reachable store, a `SingleVar` read of an absent key
fails with the typed `KeyDoesNotExist` error carrying that key, never
with a transport error; `KeyDoesNotExist` arises only from a
single-key read that resolved to zero entries on a reachable store;
and a prefix read never raises it — zero matches give an empty
list. -/
theorem c6_key_does_not_exist :
    (∀ (s : StoreState) (k : String), s.reachable = true → storeFind s k = none →
      VarPathSpec.get s (VarPathSpec.SingleVar k) =
        POr.ret (Except.error (Err.keyDoesNotExist k))) ∧
    (∀ (s : StoreState) (v : VarPathSpec) (k : String),
      VarPathSpec.get s v = POr.ret (Except.error (Err.keyDoesNotExist k)) →
        v = VarPathSpec.SingleVar k ∧ s.reachable = true ∧ storeFind s k = none) ∧
    (∀ (s : StoreState) (p : String), s.reachable = true →
      VarPathSpec.get_prefix s (VarPathSpec.Prefix p) =
        POr.ret (Except.ok (storeRange s p))) ∧
    (∀ (s : StoreState) (v : VarPathSpec) (k : String),
      VarPathSpec.get_prefix s v ≠
        POr.ret (Except.error (Err.keyDoesNotExist k))) := by
  refine ⟨fun s k hr hf => by simp [VarPathSpec.get, hr, hf], ?_, ?_, ?_⟩
  · intro s v k h
    cases v with
    | Prefix p => simp [VarPathSpec.get] at h
    | SingleVar key =>
      cases hr : s.reachable with
      | false => simp [VarPathSpec.get, hr] at h
      | true =>
        cases hf : storeFind s key with
        | some kv => simp [VarPathSpec.get, hr, hf] at h
        | none =>
          have hk : key = k := by simpa [VarPathSpec.get, hr, hf] using h
          subst hk
          exact ⟨rfl, rfl, hf⟩
  · intro s p hr
    simp [ VarPathSpec.get_prefix, hr]
  · intro s v k
    cases v with
    | SingleVar key => simp [ VarPathSpec.get_prefix]
    | Prefix p =>
      cases hr : s.reachable with
      | false => simp [ VarPathSpec.get_prefix, hr]
      | true => simp [ VarPathSpec.get_prefix, hr]

theorem c6_witness :
    VarPathSpec.get { reachable := true, entries := [("a", "1")] }
        (VarPathSpec.SingleVar "b") =
      POr.ret (Except.error (Err.keyDoesNotExist "b")) :=
  c6_key_does_not_exist.1 { reachable := true, entries := [("a", "1")] } "b"
    rfl (by decide)

/-- C8 counterexample: the physical key is not always the base joined
to the leaf with exactly one separator and no empty segments.  Two
concrete refuting inputs: `new_var "a//" "b"` keeps the base's
repeated trailing separators verbatim, yielding `"a//b"` (an empty
segment) instead of `"a/b"`; and `new_var "a" "/b"` lets a leaf that
begins with a separator replace the base entirely, yielding `"/b"`
instead of `"a/b"`. -/
theorem c8_join_counterexample :
    (VarPathSpec.new_var "a//" "b" = VarPathSpec.SingleVar "a//b" ∧
      VarPathSpec.new_var "a//" "b" ≠ VarPathSpec.SingleVar "a/b" ∧
      Mqtt.splitSegs ("a//b".toList) = [['a'], [], ['b']]) ∧
    (VarPathSpec.new_var "a" "/b" = VarPathSpec.SingleVar "/b" ∧
      VarPathSpec.new_var "a" "/b" ≠ VarPathSpec.SingleVar "a/b") := by
  decide

/-- C8 amended: when the leaf does not begin with a separator, the
constructed key is the base joined to the leaf with exactly one
inserted separator provided the base is nonempty and does not already
end with one; a base ending in separators keeps them verbatim (no
collapsing), the leaf being appended with no new separator; and a leaf
beginning with a separator replaces the base entirely. -/
theorem c8_join_amended (p v : String) :
    (headIsSlash v = false → p ≠ "" → lastIsSlash p = false →
      VarPathSpec.new_var p v = VarPathSpec.SingleVar (p ++ "/" ++ v) ∧
      VarPathSpec.new_prefix p v = VarPathSpec.Prefix (p ++ "/" ++ v)) ∧
    (headIsSlash v = false → lastIsSlash p = true →
      VarPathSpec.new_var p v = VarPathSpec.SingleVar (p ++ v) ∧
      VarPathSpec.new_prefix p v = VarPathSpec.Prefix (p ++ v)) ∧
    (headIsSlash v = true →
      VarPathSpec.new_var p v = VarPathSpec.SingleVar v ∧
      VarPathSpec.new_prefix p v = VarPathSpec.Prefix v) := by
  unfold VarPathSpec.new_var VarPathSpec.new_prefix rustPathJoin
  refine ⟨?_, ?_, ?_⟩
  · intro hv hp hl
    rw [if_neg (by simp [hv]), if_neg hp, if_neg (by simp [hl])]
    exact ⟨rfl, rfl⟩
  · intro hv hl
    have hp : p ≠ "" := by
      intro he
      subst he
      simp [lastIsSlash] at hl
    rw [if_neg (by simp [hv]), if_neg hp, if_pos hl]
    exact ⟨rfl, rfl⟩
  · intro hv
    rw [if_pos hv]
    exact ⟨rfl, rfl⟩

theorem c8_join_witness :
    ( VarPathSpec.new_var "base" "leaf" = VarPathSpec.SingleVar "base/leaf" ∧
      VarPathSpec.new_prefix "base" "leaf" = VarPathSpec.Prefix "base/leaf") ∧
    ( VarPathSpec.new_var "base/" "leaf" = VarPathSpec.SingleVar "base/leaf" ∧
      VarPathSpec.new_prefix "base/" "leaf" = VarPathSpec.Prefix "base/leaf") ∧
    ( VarPathSpec.new_var "base" "/leaf" = VarPathSpec.SingleVar "/leaf" ∧
      VarPathSpec.new_prefix "base" "/leaf" = VarPathSpec.Prefix "/leaf") :=
  ⟨(c8_join_amended "base" "leaf").1 (by decide) (by decide) (by decide),
    (c8_join_amended "base/" "leaf").2.1 (by decide) (by decide),
    (c8_join_amended "base" "/leaf").2.2 (by decide)⟩

/-- C5: on a reachable store, `fetch_vars` returns the concatenation,
in input order, of each spec's resolution (single pairs for
`SingleVar`, all matches for `Prefix`) exactly when every `SingleVar`
in the list resolves; if any `SingleVar` in the list is absent, the
whole call returns an error and no partial result list. -/
theorem c5_fetch_vars (s : StoreState) (specs : List VarPathSpec)
    (hr : s.reachable = true) :
    ((∀ k, VarPathSpec.SingleVar k ∈ specs → storeFind s k ≠ none) →
      fetch_vars s specs = POr.ret (Except.ok (resolveAll s specs))) ∧
    ((∃ k, VarPathSpec.SingleVar k ∈ specs ∧ storeFind s k = none) →
      ∃ e, fetch_vars s specs = POr.ret (Except.error e)) := by
  constructor
  · intro hall
    induction specs with
    | nil => simp [fetch_vars, resolveAll]
    | cons v rest ih =>
      have hrest := ih (fun k hk => hall k (by simp [hk]))
      cases v with
      | SingleVar k =>
        have hk := hall k (by simp)
        cases hf : storeFind s k with
        | none => exact absurd hf hk
        | some kv =>
          simp [fetch_vars, VarPathSpec.get, hr, hf, hrest, resolveAll, resolveSpec]
      | Prefix p =>
        simp [fetch_vars, VarPathSpec.get_prefix, hr, hrest, resolveAll, resolveSpec]
  · rintro ⟨k, hk, hf⟩
    induction specs with
    | nil => simp at hk
    | cons v rest ih =>
      rcases List.mem_cons.mp hk with hv | hv
      · rw [← hv]
        exact ⟨Err.keyDoesNotExist k,
          by simp [fetch_vars, VarPathSpec.get, hr, hf]⟩
      · obtain ⟨e, he⟩ := ih hv
        cases v with
        | SingleVar k' =>
          cases hf' : storeFind s k' with
          | none =>
            exact ⟨Err.keyDoesNotExist k',
              by simp [fetch_vars, VarPathSpec.get, hr, hf']⟩
          | some kv =>
            exact ⟨e, by simp [fetch_vars, VarPathSpec.get, hr, hf', he]⟩
        | Prefix p =>
          exact ⟨e, by simp [fetch_vars, VarPathSpec.get_prefix, hr, he]⟩

theorem c5_witness :
    fetch_vars { reachable := true, entries := [("a", "1"), ("ab", "2")] }
        [VarPathSpec.Prefix "a", VarPathSpec.SingleVar "ab"] =
      POr.ret (Except.ok
        (resolveAll { reachable := true, entries := [("a", "1"), ("ab", "2")] }
          [VarPathSpec.Prefix "a", VarPathSpec.SingleVar "ab"])) :=
  (c5_fetch_vars { reachable := true, entries := [("a", "1"), ("ab", "2")] }
      [VarPathSpec.Prefix "a", VarPathSpec.SingleVar "ab"] rfl).1
    (by
      intro k hk
      simp at hk
      subst hk
      decide)

end EtcdConf

namespace EtcdConf

/-- C2: `kv_operations` first ensures a lease (granting exactly when
none was granted before), then applies the operations strictly in list
order: with all store calls succeeding the issued calls are the
operations' calls in order; if the call for operation `i` fails, the
calls issued are exactly those for operations `0..i`, the error is
surfaced, and nothing is issued for `i+1..n` (no rollback calls are
ever issued). -/
theorem c2_kv_operations (c : ConfClient) (l g : Int) (grant : Except Err Int)
    (ops : List Operation) (res : Nat → Option Err) :
    (c.lease_id = some l →
      ConfClient.kv_operations c grant ops res =
        ((applyOps l res ops 0).1, c, (applyOps l res ops 0).2)) ∧
    (c.lease_id = none →
      ConfClient.kv_operations c (Except.ok g) ops res =
        (Effect.leaseGrant :: (applyOps g res ops 0).1,
          { c with lease_id := some g }, (applyOps g res ops 0).2)) ∧
    ((∀ k, res k = none) →
      applyOps l res ops 0 = (ops.filterMap (opCall l), none)) ∧
    (∀ (i : Nat) (e : Err) (hi : i < ops.length),
      (∀ k, k < i → res k = none) → res i = some e →
      opCall l (ops.get ⟨i, hi⟩) ≠ none →
      applyOps l res ops 0 = ((ops.take (i + 1)).filterMap (opCall l), some e)) := by
  refine ⟨fun h => kv_operations_some c l h grant ops res,
    fun h => kv_operations_none c h g ops res,
    fun h => applyOps_all_ok l res h ops 0,
    fun i e hi hok hfail hcall => ?_⟩
  exact applyOps_abort l res ops 0 i e hi
    (fun k hk => by simpa using hok k hk) (by simpa using hfail) hcall

theorem c2_witness :
    applyOps 3 (fun n => if n = 1 then some (Err.transport "boom") else none)
        [Operation.Set "k" "v" true, Operation.DelKey "d", Operation.DelPrefix "p"] 0 =
      (([Operation.Set "k" "v" true, Operation.DelKey "d",
          Operation.DelPrefix "p"].take 2).filterMap (opCall 3),
        some (Err.transport "boom")) :=
  (c2_kv_operations { lease_timeout := 5, lease_id := some 3 } 3 0
      (Except.ok 0)
      [Operation.Set "k" "v" true, Operation.DelKey "d", Operation.DelPrefix "p"]
      (fun n => if n = 1 then some (Err.transport "boom") else none)).2.2.2
    1 (Err.transport "boom") (by decide)
    (by
      intro k hk
      have hk0 : k = 0 := by omega
      subst hk0
      rfl)
    rfl (by decide)

/-- C3 counterexample: a fresh client (lease `None`) that applies a
single `Set` with `with_lease = false` — no write needing a lease and
no entry into the watch loop — nevertheless gets a lease granted:
`kv_operations` grants on its first call regardless of the operations'
content, so "granted on first need (first write with with_lease=true,
or first entry into the watch loop)" is false. -/
theorem c3_lease_counterexample :
    ( ConfClient.kv_operations { lease_timeout := 5, lease_id := none }
        (Except.ok 7) [Operation.Set "k" "v" false] (fun _ => none)).2.1.lease_id
        = some 7 ∧
    ( ConfClient.kv_operations { lease_timeout := 5, lease_id := none }
        (Except.ok 7) [Operation.Set "k" "v" false] (fun _ => none)).1.count
        Effect.leaseGrant = 1 ∧
    ([Operation.Set "k" "v" false].all (fun op =>
      match op with
      | Operation.Set _ _ wl => !wl
      | _ => true)) = true := by
  decide

/-- C3 amended: the lease id starts as `None` at construction and
`get_lease_id` reads it; it transitions from `None` to `Some` exactly
once — on the first `kv_operations` call (whatever its operations) or
on entry into `monitor` — and is never replaced afterwards: with a
lease already granted, `kv_operations` and `monitor` issue no grant
call and leave the client unchanged. -/
theorem c3_lease_single_grant :
    (∀ (t : Int) (c : ConfClient), ConfClient.new none none t = Except.ok c →
      ConfClient.get_lease_id c = none) ∧
    (∀ c : ConfClient, ConfClient.get_lease_id c = c.lease_id) ∧
    (∀ (c : ConfClient) (l : Int) (grant : Except Err Int)
      (ops : List Operation) (res : Nat → Option Err), c.lease_id = some l →
        (ConfClient.kv_operations c grant ops res).2.1 = c ∧
        Effect.leaseGrant ∉ (ConfClient.kv_operations c grant ops res).1) ∧
    (∀ (c : ConfClient) (g : Int) (ops : List Operation)
      (res : Nat → Option Err), c.lease_id = none →
        (ConfClient.kv_operations c (Except.ok g) ops res).2.1.lease_id = some g ∧
        (ConfClient.kv_operations c (Except.ok g) ops res).1.count
          Effect.leaseGrant = 1) ∧
    (∀ (c : ConfClient) (l : Int) (grant : Except Err Int)
      (inps : List IterInput), c.lease_id = some l →
        (ConfClient.monitor c grant inps).2.1 = c ∧
        (ConfClient.monitor c grant inps).1.count Effect.leaseGrant = 0) ∧
    (∀ (c : ConfClient) (g : Int) (inps : List IterInput), c.lease_id = none →
        (ConfClient.monitor c (Except.ok g) inps).2.1.lease_id = some g ∧
        (ConfClient.monitor c (Except.ok g) inps).1.count Effect.leaseGrant = 1) := by
  refine ⟨?_, fun c => rfl, ?_, ?_, ?_, ?_⟩
  · intro t c h
    simp [ConfClient.new] at h
    rw [← h]
    rfl
  · intro c l grant ops res h
    rw [kv_operations_some c l h grant ops res]
    refine ⟨rfl, ?_⟩
    intro hmem
    have := applyOps_writes l res ops 0 _ hmem
    simp [Effect.isWrite] at this
  · intro c g ops res h
    rw [kv_operations_none c h g ops res]
    refine ⟨rfl, ?_⟩
    have hno : Effect.leaseGrant ∉ (applyOps g res ops 0).1 := by
      intro hmem
      have := applyOps_writes g res ops 0 _ hmem
      simp [Effect.isWrite] at this
    simp [List.count_cons_self, List.count_eq_zero.mpr hno]
  · intro c l grant inps h
    rw [ConfClient.monitor.eq_def, h]
    exact ⟨monitorLoop_client c l h inps,
      List.count_eq_zero.mpr (monitorLoop_no_grant c l h inps)⟩
  · intro c g inps h
    rw [ConfClient.monitor.eq_def, h]
    have hl' : ({ c with lease_id := some g } : ConfClient).lease_id = some g := rfl
    refine ⟨?_, ?_⟩
    · rw [monitorLoop_client { c with lease_id := some g } g hl' inps]
    · have hno := monitorLoop_no_grant { c with lease_id := some g } g hl' inps
      simp [List.count_cons_self, List.count_eq_zero.mpr hno]

theorem c3_witness :
    (ConfClient.monitor { lease_timeout := 5, lease_id := none }
        (Except.ok 7) []).2.1.lease_id = some 7 ∧
    (ConfClient.monitor { lease_timeout := 5, lease_id := none }
        (Except.ok 7) []).1.count Effect.leaseGrant = 1 :=
  c3_lease_single_grant.2.2.2.2.2 { lease_timeout := 5, lease_id := none } 7 [] rfl

/-- C1: with the lease granted, the trace of one iteration of the
monitor loop is exactly one keep-alive call, then the sink
notifications of this iteration, then the store writes applying this
iteration's outgoing mutations — every notification strictly precedes
every application. -/
theorem c1_notify_before_apply (c : ConfClient) (l : Int)
    (hl : c.lease_id = some l) (inp : IterInput) :
    ∃ ns ws, (monitorIter c inp).1 = Effect.keepAlive :: (ns ++ ws) ∧
      (∀ e ∈ ns, Effect.isNotify e = true) ∧
      (∀ e ∈ ws, Effect.isWrite e = true) :=
  monitorIter_trace_shape c l hl inp

theorem c1_witness :
    ∃ ns ws,
      (monitorIter { lease_timeout := 5, lease_id := some 3 }
        { keepAliveRes := none,
          poll := PollResult.msg
            { canceled := false, created := false,
              events := [{ etype := EventType.put,
                           kv := some { key := "k", value := "v", lease := 0 } }] },
          notifyRes := fun _ => none,
          opsRes := Except.ok [Operation.DelKey "d"],
          grantRes := Except.ok 0,
          applyRes := fun _ => none }).1 = Effect.keepAlive :: (ns ++ ws) ∧
      (∀ e ∈ ns, Effect.isNotify e = true) ∧
      (∀ e ∈ ws, Effect.isWrite e = true) :=
  c1_notify_before_apply { lease_timeout := 5, lease_id := some 3 } 3 rfl _

end EtcdConf

namespace EtcdConf

/-- The payload the spec prescribes for one watch event:
`Set{key, value, with_lease: lease != 0}` for a put, `DeleteKey{key}`
for a delete (spec.md §4.4 step 2); `Nope` only in the impossible case
of an event without a key/value record. -/
def eventOperation (ev : WEvent) : Operation :=
  match ev.kv with
  | some kv =>
    match ev.etype with
    | EventType.delete => Operation.DelKey kv.key
    | EventType.put => Operation.Set kv.key kv.value (decide (kv.lease ≠ 0))
  | none => Operation.Nope

theorem eventOp_of_kv (ev : WEvent) (h : ev.kv ≠ none) :
    eventOp ev = some (eventOperation ev) := by
  obtain ⟨et, kvf⟩ := ev
  cases kvf with
  | none => exact absurd rfl h
  | some kv => cases et <;> rfl

theorem filterMap_eventOp (evs : List WEvent)
    (h : ∀ ev ∈ evs, ev.kv ≠ none) :
    evs.filterMap eventOp = evs.map eventOperation := by
  induction evs with
  | nil => simp
  | cons ev rest ih =>
    rw [List.filterMap_cons, eventOp_of_kv ev (h ev (by simp)),
      List.map_cons, ih (fun x hx => h x (by simp [hx]))]

theorem iterOps_trace_pre (c : ConfClient) (inp : IterInput) (pre : List Effect) :
    ∃ ws, (iterOps c inp pre).1 = pre ++ ws ∧
      ∀ e ∈ ws, e = Effect.leaseGrant ∨ Effect.isWrite e = true := by
  cases hop : inp.opsRes with
  | error e => exact ⟨[], by simp [iterOps, hop], by simp⟩
  | ok ops =>
    simp only [iterOps, hop]
    cases hr : (ConfClient.kv_operations c inp.grantRes ops inp.applyRes).2.2 with
    | some e =>
      exact ⟨(ConfClient.kv_operations c inp.grantRes ops inp.applyRes).1, rfl,
        fun e he => kv_operations_trace c inp.grantRes ops inp.applyRes e he⟩
    | none =>
      exact ⟨(ConfClient.kv_operations c inp.grantRes ops inp.applyRes).1, rfl,
        fun e he => kv_operations_trace c inp.grantRes ops inp.applyRes e he⟩

/-- C7: for a message received in one tick that is not a cancellation,
with all notify calls succeeding and every event carrying its
key/value record, the sink is notified exactly once per event, in
event order, with `DelKey{key}` for deletes and
`Set{key, value, with_lease: lease != 0}` for puts. -/
theorem c7_sink_per_event (c : ConfClient) (inp : IterInput) (r : WatchResp)
    (hka : inp.keepAliveRes = none) (hp : inp.poll = PollResult.msg r)
    (hc : r.canceled = false) (hn : ∀ n, inp.notifyRes n = none)
    (hkv : ∀ ev ∈ r.events, ev.kv ≠ none) :
    notifiedOps (monitorIter c inp).1 = r.events.map eventOperation := by
  have hne := notifyEvents_all_ok inp.notifyRes hn r.events 0
  have htr : (monitorIter c inp).1 =
      (iterOps c inp
        (Effect.keepAlive :: ((r.events.filterMap eventOp).map Effect.notified))).1 := by
    simp [monitorIter, hka, hp, hc, hne]
  obtain ⟨ws, hws, hwall⟩ :=
    iterOps_trace_pre c inp
      (Effect.keepAlive :: ((r.events.filterMap eventOp).map Effect.notified))
  rw [htr, hws]
  have hwnil : notifiedOps ws = [] := by
    refine notifiedOps_nil_of_not_notify ws (fun e he => ?_)
    rcases hwall e he with h | h
    · rw [h]; rfl
    · exact write_not_notify e h
  have hhead : notifiedOps
      (Effect.keepAlive :: ((r.events.filterMap eventOp).map Effect.notified)) =
      r.events.filterMap eventOp := by
    have : notifiedOps ((r.events.filterMap eventOp).map Effect.notified) =
        r.events.filterMap eventOp := notifiedOps_map _
    simpa [notifiedOps, List.filterMap_cons] using this
  rw [notifiedOps_append, hwnil, List.append_nil, hhead,
    filterMap_eventOp r.events hkv]

theorem c7_witness :
    notifiedOps
      (monitorIter { lease_timeout := 5, lease_id := some 3 }
        { keepAliveRes := none,
          poll := PollResult.msg
            { canceled := false, created := false,
              events := [{ etype := EventType.put,
                           kv := some { key := "k", value := "v", lease := 9 } },
                         { etype := EventType.delete,
                           kv := some { key := "g", value := "", lease := 0 } }] },
          notifyRes := fun _ => none,
          opsRes := Except.ok [],
          grantRes := Except.ok 0,
          applyRes := fun _ => none }).1 =
      [Operation.Set "k" "v" true, Operation.DelKey "g"] := by
  have h := c7_sink_per_event { lease_timeout := 5, lease_id := some 3 }
    { keepAliveRes := none,
      poll := PollResult.msg
        { canceled := false, created := false,
          events := [{ etype := EventType.put,
                       kv := some { key := "k", value := "v", lease := 9 } },
                     { etype := EventType.delete,
                       kv := some { key := "g", value := "", lease := 0 } }] },
      notifyRes := fun _ => none,
      opsRes := Except.ok [],
      grantRes := Except.ok 0,
      applyRes := fun _ => none }
    { canceled := false, created := false,
      events := [{ etype := EventType.put,
                   kv := some { key := "k", value := "v", lease := 9 } },
                 { etype := EventType.delete,
                   kv := some { key := "g", value := "", lease := 0 } }] }
    rfl rfl rfl (fun _ => rfl) (by decide)
  rw [h]
  decide

/-- The outcome of the outgoing-mutations step does not depend on the
trace accumulated by the earlier steps of the iteration. -/
theorem iterOps_outcome_indep (c : ConfClient) (inp : IterInput)
    (pre pre' : List Effect) :
    (iterOps c inp pre).2.2 = (iterOps c inp pre').2.2 := by
  cases hop : inp.opsRes with
  | error e => simp [iterOps, hop]
  | ok ops =>
    simp only [iterOps, hop]
    cases hr : (ConfClient.kv_operations c inp.grantRes ops inp.applyRes).2.2 with
    | some e => simp [hr]
    | none => simp [hr]

/-- An iteration whose poll step does not terminate or fail — a
timeout, or a non-cancellation message whose notifications all succeed
— continues into the outgoing-mutations step, and its outcome is that
step's outcome. -/
theorem monitorIter_reaches_ops (c : ConfClient) (inp : IterInput)
    (hka : inp.keepAliveRes = none)
    (hp : inp.poll = PollResult.timeout ∨
      ∃ r, inp.poll = PollResult.msg r ∧ r.canceled = false ∧
        (notifyEvents inp.notifyRes r.events 0).2 = none) :
    (monitorIter c inp).2.2 = (iterOps c inp [Effect.keepAlive]).2.2 := by
  rcases hp with hp | ⟨r, hp, hc, hn0⟩
  · rw [monitorIter_timeout c inp hka hp]
  · have h : monitorIter c inp =
        iterOps c inp (Effect.keepAlive :: (notifyEvents inp.notifyRes r.events 0).1) := by
      simp [monitorIter, hka, hp, hc, hn0]
    rw [h]
    exact iterOps_outcome_indep c inp _ _

/-- C4: the monitor loop ends an iteration with success exactly when
(after a successful keep-alive) the watch stream closed or a
cancellation message arrived; every fallible step is fail-fast — a
keep-alive error, a stream-read error, a sink `notify` error, a
mutation-source error and a store-apply error each terminate the
iteration with that error; a poll timeout is not an error — the
iteration proceeds directly to the outgoing-mutations step with no
sink notification; with every fallible oracle succeeding no iteration
fails; and over a whole run the loop returns `Ok` (resp. an error)
exactly when some iteration reported done (resp. failed) after a
prefix of continuing iterations — there is no internal retry. -/
theorem c4_monitor_termination (c : ConfClient) (l : Int) (inp : IterInput)
    (inps : List IterInput) (hl : c.lease_id = some l) :
    ((monitorIter c inp).2.2 = IterOutcome.done ↔
      inp.keepAliveRes = none ∧
        (inp.poll = PollResult.closed ∨
          ∃ r, inp.poll = PollResult.msg r ∧ r.canceled = true)) ∧
    (∀ e, inp.keepAliveRes = some e →
      monitorIter c inp = ([Effect.keepAlive], c, IterOutcome.failed e)) ∧
    (∀ e, inp.keepAliveRes = none → inp.poll = PollResult.streamErr e →
      monitorIter c inp = ([Effect.keepAlive], c, IterOutcome.failed e)) ∧
    (∀ e r, inp.keepAliveRes = none → inp.poll = PollResult.msg r →
      r.canceled = false → (notifyEvents inp.notifyRes r.events 0).2 = some e →
      (monitorIter c inp).2.2 = IterOutcome.failed e) ∧
    (∀ e, inp.keepAliveRes = none →
      (inp.poll = PollResult.timeout ∨
        ∃ r, inp.poll = PollResult.msg r ∧ r.canceled = false ∧
          (notifyEvents inp.notifyRes r.events 0).2 = none) →
      inp.opsRes = Except.error e →
      (monitorIter c inp).2.2 = IterOutcome.failed e) ∧
    (∀ e ops, inp.keepAliveRes = none →
      (inp.poll = PollResult.timeout ∨
        ∃ r, inp.poll = PollResult.msg r ∧ r.canceled = false ∧
          (notifyEvents inp.notifyRes r.events 0).2 = none) →
      inp.opsRes = Except.ok ops →
      (applyOps l inp.applyRes ops 0).2 = some e →
      (monitorIter c inp).2.2 = IterOutcome.failed e) ∧
    (inp.keepAliveRes = none → inp.poll = PollResult.timeout →
      monitorIter c inp = iterOps c inp [Effect.keepAlive] ∧
      ∀ op, Effect.notified op ∉ (monitorIter c inp).1) ∧
    ((inp.keepAliveRes = none ∧ (∀ e, inp.poll ≠ PollResult.streamErr e) ∧
      (∀ n, inp.notifyRes n = none) ∧ (∀ e, inp.opsRes ≠ Except.error e) ∧
      (∀ k, inp.applyRes k = none)) →
      ∀ e, (monitorIter c inp).2.2 ≠ IterOutcome.failed e) ∧
    ((monitorLoop c inps).2.2 = MonOutcome.ok ↔
      ∃ pre x post, inps = pre ++ x :: post ∧
        (∀ y ∈ pre, (monitorIter c y).2.2 = IterOutcome.cont) ∧
        (monitorIter c x).2.2 = IterOutcome.done) ∧
    (∀ e, (monitorLoop c inps).2.2 = MonOutcome.err e ↔
      ∃ pre x post, inps = pre ++ x :: post ∧
        (∀ y ∈ pre, (monitorIter c y).2.2 = IterOutcome.cont) ∧
        (monitorIter c x).2.2 = IterOutcome.failed e) := by
  refine ⟨monitorIter_done_iff c inp,
    fun e he => monitorIter_ka_fail c inp e he,
    fun e hka hp => by simp [monitorIter, hka, hp],
    fun e r hka hp hc hn => by simp [monitorIter, hka, hp, hc, hn],
    fun e hka hreach hops => ?_,
    fun e ops hka hreach hops happly => ?_,
    fun hka hp => ⟨monitorIter_timeout c inp hka hp, ?_⟩, ?_,
    monitorLoop_ok_iff c l hl inps,
    fun e => monitorLoop_err_iff c l hl inps e⟩
  · rw [monitorIter_reaches_ops c inp hka hreach]
    simp [iterOps, hops]
  · rw [monitorIter_reaches_ops c inp hka hreach]
    simp only [iterOps, hops]
    rw [kv_operations_some c l hl inp.grantRes ops inp.applyRes]
    simp [happly]
  · rw [monitorIter_timeout c inp hka hp]
    exact fun op => iterOps_no_notify c inp [Effect.keepAlive] (by simp) op
  · rintro ⟨hka, hse, hn, hops, happ⟩ e
    have hiter : ∀ pre, (iterOps c inp pre).2.2 ≠ IterOutcome.failed e := by
      intro pre
      cases hop : inp.opsRes with
      | error e' => exact absurd hop (hops e')
      | ok ops =>
        simp only [iterOps, hop]
        rw [kv_operations_some c l hl inp.grantRes ops inp.applyRes,
          applyOps_all_ok l inp.applyRes happ ops 0]
        simp
    cases hp : inp.poll with
    | timeout =>
      rw [monitorIter_timeout c inp hka hp]
      exact hiter [Effect.keepAlive]
    | streamErr e' => exact absurd hp (hse e')
    | closed => simp [monitorIter, hka, hp]
    | msg r =>
      cases hc : r.canceled with
      | true => simp [monitorIter, hka, hp, hc]
      | false =>
        have hne := notifyEvents_all_ok inp.notifyRes hn r.events 0
        have : (monitorIter c inp).2.2 =
            (iterOps c inp
              (Effect.keepAlive ::
                ((r.events.filterMap eventOp).map Effect.notified))).2.2 := by
          simp [monitorIter, hka, hp, hc, hne]
        rw [this]
        exact hiter _

theorem c4_witness :
    (monitorIter { lease_timeout := 5, lease_id := some 3 }
      { keepAliveRes := none, poll := PollResult.closed,
        notifyRes := fun _ => none, opsRes := Except.ok [],
        grantRes := Except.ok 0, applyRes := fun _ => none }).2.2
      = IterOutcome.done ∧
    (monitorLoop { lease_timeout := 5, lease_id := some 3 }
      [{ keepAliveRes := none, poll := PollResult.closed,
         notifyRes := fun _ => none, opsRes := Except.ok [],
         grantRes := Except.ok 0, applyRes := fun _ => none }]).2.2
      = MonOutcome.ok ∧
    (monitorIter { lease_timeout := 5, lease_id := some 3 }
      { keepAliveRes := none, poll := PollResult.timeout,
        notifyRes := fun _ => none,
        opsRes := Except.error (Err.transport "source failed"),
        grantRes := Except.ok 0, applyRes := fun _ => none }).2.2
      = IterOutcome.failed (Err.transport "source failed") := by
  have h := c4_monitor_termination { lease_timeout := 5, lease_id := some 3 } 3
    { keepAliveRes := none, poll := PollResult.closed,
      notifyRes := fun _ => none, opsRes := Except.ok [],
      grantRes := Except.ok 0, applyRes := fun _ => none }
    [{ keepAliveRes := none, poll := PollResult.closed,
       notifyRes := fun _ => none, opsRes := Except.ok [],
       grantRes := Except.ok 0, applyRes := fun _ => none }] rfl
  have h' := c4_monitor_termination { lease_timeout := 5, lease_id := some 3 } 3
    { keepAliveRes := none, poll := PollResult.timeout,
      notifyRes := fun _ => none,
      opsRes := Except.error (Err.transport "source failed"),
      grantRes := Except.ok 0, applyRes := fun _ => none } [] rfl
  have hdone := h.1.mpr ⟨rfl, Or.inl rfl⟩
  exact ⟨hdone, h.2.2.2.2.2.2.2.2.1.mpr ⟨[], _, [], rfl, by simp, hdone⟩,
    h'.2.2.2.2.1 (Err.transport "source failed") rfl (Or.inl rfl) rfl⟩

end EtcdConf
